import Mathlib

/-!
# Verification of the CamStation media-session core

A shallow embedding of the cache, stream-pool, reconnect, mode-decision,
seek and stop logic of `src/core/playback_controller.py`,
`src/core/stream_manager.py` and `src/ui/components/unified_camera_cell.py`,
together with proofs and refutations of the specification's testable
properties (P1–P6 and the scenarios).

Python's `OrderedDict` is embedded as an association list
`List (Int × α)` ordered by recency: the head is the least recently
used entry (the first victim of `popitem(last=False)`) and new or
promoted entries go to the back (`move_to_end`).  Timestamps are the
millisecond integers the code itself uses as keys (`int(ts * 1000)`).
-/

set_option autoImplicit false

namespace CamStation

variable {α : Type} {β : Type}

/-- `OrderedDict.move_to_end(k)`: move the (unique) entry with key `k` to
the back, keeping its payload; no-op when `k` is absent. -/
def moveToEnd (k : Int) (l : List (Int × α)) : List (Int × α) :=
  match l.find? (fun p => p.1 = k) with
  | some e => l.filter (fun p => ¬ p.1 = k) ++ [e]
  | none => l

/-- The `while len(cache) >= cap: cache.popitem(last=False)` eviction loop:
drop entries from the front (least recently used) while the length is
still at least `cap`. -/
def evictToBelow (cap : Nat) : List α → List α
  | [] => []
  | x :: xs => if cap ≤ (x :: xs).length then evictToBelow cap xs else x :: xs

/-- `FrameCache.put` (playback_controller.py:65-82): if the key is already
present, `move_to_end` and return (payload kept); otherwise evict from the
front while at capacity, then append the new entry. -/
def fcPut (cap : Nat) (l : List (Int × α)) (k : Int) (v : α) : List (Int × α) :=
  if (l.find? (fun p => p.1 = k)).isSome then moveToEnd k l
  else evictToBelow cap l ++ [(k, v)]

/-- `FrameCache.get` (playback_controller.py:84-92): exact-key lookup;
a hit promotes the entry to most recently used. -/
def fcGet (l : List (Int × α)) (k : Int) : Option α × List (Int × α) :=
  match l.find? (fun p => p.1 = k) with
  | some e => (some e.2, moveToEnd k l)
  | none => (none, l)

/-- The loop body of Python's `bisect.bisect_left` (`lo, hi` cursors,
`mid = (lo+hi)//2`); `fuel` bounds the iteration count, which is at most
`hi - lo`. -/
def bisectLoop (a : List Int) (x : Int) : Nat → Nat → Nat → Nat
  | lo, _hi, 0 => lo
  | lo, hi, fuel + 1 =>
    if lo < hi then
      if a.getD ((lo + hi) / 2) 0 < x then
        bisectLoop a x ((lo + hi) / 2 + 1) hi fuel
      else bisectLoop a x lo ((lo + hi) / 2) fuel
    else lo

/-- `bisect.bisect_left(a, x)` as called by both `get_nearest`
implementations. -/
def bisectLeft (a : List Int) (x : Int) : Nat :=
  bisectLoop a x 0 a.length a.length

/-- `FrameCache.get_nearest` (playback_controller.py:94-116): binary-search
the (recency-ordered) key list for the insertion point, collect the
predecessor then the successor as candidates, and return the FIRST
candidate within `maxDelta`, paired with its payload.  A hit does not
promote the entry. -/
def fcGetNearest (l : List (Int × α)) (t : Int) (maxDelta : Int) :
    Option (Int × α) :=
  match l with
  | [] => none
  | _ :: _ =>
    let keys := l.map Prod.fst
    let idx := bisectLeft keys t
    let cands := (if 0 < idx then [keys.getD (idx - 1) 0] else []) ++
      (if idx < keys.length then [keys.getD idx 0] else [])
    match cands.find? (fun k => |k - t| ≤ maxDelta) with
    | some k =>
      match l.find? (fun p => p.1 = k) with
      | some e => some (e.1, e.2)
      | none => none
    | none => none

/-- `FrameCache.get_range` (playback_controller.py:123-132): first and last
keys of the recency-ordered `OrderedDict`, or nothing when empty.  (The
code converts the millisecond keys back to datetimes; we return the keys.) -/
def fcGetRange (l : List (Int × α)) : Option (Int × Int) :=
  match l.map Prod.fst with
  | [] => none
  | k :: ks => some (k, (k :: ks).getLastD k)

/-- `ThumbnailCache.put` (playback_controller.py:148-162): a duplicate key
is a plain `return` (no promotion); otherwise evict from the front while at
capacity and append.  The payload stands for the already-resized thumbnail. -/
def tcPut (cap : Nat) (l : List (Int × α)) (k : Int) (v : α) : List (Int × α) :=
  if (l.find? (fun p => p.1 = k)).isSome then l
  else evictToBelow cap l ++ [(k, v)]

/-- The `best_key` selection loop of `ThumbnailCache.get_nearest`
(playback_controller.py:173-197): visit the insertion-point predecessor
then successor; keep the candidate with strictly smaller delta that is
within `maxDelta` (so on ties the predecessor, visited first, is kept). -/
def tcConsider (t maxDelta : Int) (best : Option (Int × Int)) (k : Int) :
    Option (Int × Int) :=
  match best with
  | none => if |k - t| ≤ maxDelta then some (|k - t|, k) else none
  | some (bd, bk) =>
    if |k - t| < bd ∧ |k - t| ≤ maxDelta then some (|k - t|, k)
    else some (bd, bk)

/-- The key chosen by `ThumbnailCache.get_nearest` (the function itself
returns `self._cache[best_key].copy()`). -/
def tcBestKey (keys : List Int) (t maxDelta : Int) : Option Int :=
  match keys with
  | [] => none
  | _ :: _ =>
    let idx := bisectLeft keys t
    let cands := (if 0 < idx then [keys.getD (idx - 1) 0] else []) ++
      (if idx < keys.length then [keys.getD idx 0] else [])
    (cands.foldl (tcConsider t maxDelta) none).map Prod.snd

/-- The candidate keys both `get_nearest` implementations examine: the
immediate predecessor (first) and successor (second) of the binary-search
insertion point.  This is the common `candidates` / `[idx-1, idx]`
computation of playback_controller.py:105-109 and 187. -/
def nearCands (keys : List Int) (t : Int) : List Int :=
  (if 0 < bisectLeft keys t then [keys.getD (bisectLeft keys t - 1) 0]
    else []) ++
  (if bisectLeft keys t < keys.length then [keys.getD (bisectLeft keys t) 0]
    else [])

/-- A sequence of `FrameCache.put` calls starting from the empty cache. -/
def fcPutSeq (cap : Nat) (ps : List (Int × α)) : List (Int × α) :=
  ps.foldl (fun s p => fcPut cap s p.1 p.2) []

/-! ## StreamManager (stream_manager.py)

The pool `self._streams : OrderedDict[int, CameraStream]` is embedded as
the recency-ordered list of its camera-id keys; the claims under scrutiny
only concern which connections exist and in which recency order. -/

/-- `StreamManager.start_stream` (stream_manager.py:248-289): an id already
present is promoted to most recently used (reuse, no new connection);
otherwise evict from the front while at the `max_streams` limit, then
append the id of the newly created stream. -/
def poolStart (maxStreams : Nat) (l : List Int) (id : Int) : List Int :=
  if id ∈ l then l.erase id ++ [id]
  else evictToBelow maxStreams l ++ [id]

/-- `StreamManager.stop_stream` (stream_manager.py:291-296): stop and
remove the named id if present. -/
def poolStop (l : List Int) (id : Int) : List Int :=
  if id ∈ l then l.erase id else l

/-- `StreamManager.touch_stream` (stream_manager.py:338-342): promote a
present id to most recently used; no-op otherwise. -/
def poolTouch (l : List Int) (id : Int) : List Int :=
  if id ∈ l then l.erase id ++ [id] else l

/-- One client call on the pool. -/
inductive PoolAction where
  | start (id : Int)
  | stop (id : Int)
  | touch (id : Int)
deriving DecidableEq, Repr

def poolStep (maxStreams : Nat) (l : List Int) : PoolAction → List Int
  | .start id => poolStart maxStreams l id
  | .stop id => poolStop l id
  | .touch id => poolTouch l id

/-- A sequence of pool calls starting from the empty pool. -/
def poolRun (maxStreams : Nat) (acts : List PoolAction) : List Int :=
  acts.foldl (poolStep maxStreams) []

/-! ## CameraStream reconnect logic (stream_manager.py) -/

def maxReconnectAttempts : Nat := 10

/-- `_base_reconnect_delay = 1.0` seconds, in milliseconds. -/
def baseReconnectDelayMs : Nat := 1000

/-- Externally visible events of the capture loop. -/
inductive LoopEvent where
  | openAttempt
  | backoff (ms : Nat)
  | failedWait (ms : Nat)
  | connected
deriving DecidableEq, Repr

/-- `CameraStream._handle_reconnect` (stream_manager.py:202-219), run with
the stop flag clear: increment the attempt counter; past
`max_reconnect_attempts` emit `failed`, wait a fixed 10 s cooldown and
reset the counter to 0; otherwise back off
`min(base * 2^(attempts-1), 30)` seconds.  Returns the new counter and
the wait performed. -/
def handleReconnect (attempts : Nat) : Nat × LoopEvent :=
  if maxReconnectAttempts < attempts + 1 then (0, .failedWait 10000)
  else (attempts + 1,
    .backoff (min (baseReconnectDelayMs * 2 ^ (attempts + 1 - 1)) 30000))

/-- The connect phase of `CameraStream._capture_loop`
(stream_manager.py:119-129): with the stop flag clear, repeatedly attempt
to open the pipeline; each failure runs `_handle_reconnect` and loops;
the first success resets the counter and enters the read loop.  `results`
supplies the outcome of each `_connect()` call; the trace ends at the
first success (the read loop is outside the claims modelled here). -/
def runOpens (results : List Bool) (attempts : Nat) : List LoopEvent :=
  match results with
  | [] => []
  | ok :: rest =>
    if ok then [LoopEvent.openAttempt, LoopEvent.connected]
    else LoopEvent.openAttempt :: (handleReconnect attempts).2 ::
      runOpens rest (handleReconnect attempts).1

/-- Number of pipeline-open attempts in a capture-loop trace. -/
def countOpens (evs : List LoopEvent) : Nat :=
  evs.countP (fun e => e = LoopEvent.openAttempt)

/-! ## UnifiedCameraCell mode decision (unified_camera_cell.py) -/

/-- `self._live_threshold_seconds = 5` (unified_camera_cell.py:83). -/
def liveThresholdSeconds : Int := 5

inductive CellMode where
  | live
  | playback
deriving DecidableEq, Repr

/-- The decision rule of `UnifiedCameraCell._decide_mode`
(unified_camera_cell.py:176-189): no target time, or a target within the
live threshold of `now`, selects live mode; otherwise playback.  Times
are in seconds. -/
def decideMode (target : Option Int) (now : Int) : CellMode :=
  match target with
  | none => .live
  | some t =>
    if now - t ≤ liveThresholdSeconds then .live else .playback

/-- The mode comparison inside `UnifiedCameraCell.seek`
(unified_camera_cell.py:303-319), which always has a concrete position. -/
def seekModeRule (position now : Int) : CellMode :=
  if now - position ≤ liveThresholdSeconds then .live else .playback

/-! ## PlaybackController seek and stop (playback_controller.py) -/

/-- The fields of `PlaybackController` that `seek` reads and writes
(times in seconds). -/
structure PCSeekState where
  startTime : Option Int
  endTime : Option Int
  currentTime : Option Int
deriving DecidableEq, Repr

/-- `PlaybackController.seek` (playback_controller.py:337-380) restricted
to the position state: return unchanged when no window is loaded,
otherwise clamp the target with `max(start, min(target, end))` and store
it as the current position.  (The cache consultations that follow emit
frames but never touch `_current_time`; a deferred `_do_seek` re-stores
the same clamped target.)  No input is rejected. -/
def pcSeek (s : PCSeekState) (target : Int) : PCSeekState :=
  match s.startTime, s.endTime with
  | some st, some en => { s with currentTime := some (max st (min target en)) }
  | _, _ => s

/-- The clamp function as the specification words it: `clamp(t, start, end)`. -/
def clampSpec (t lo hi : Int) : Int :=
  if t < lo then lo else if hi < t then hi else t

/-- The fields of `CameraStream` that `stop` (stream_manager.py:83-96)
touches.  `releases` counts calls to `self._capture.release()`. -/
structure CamStopState where
  stopFlag : Bool
  threadAlive : Bool
  captureOpen : Bool
  connected : Bool
  releases : Nat
deriving DecidableEq, Repr

/-- `CameraStream.stop`: set the stop flag; join and clear the thread if
present; release and clear the capture if present; mark disconnected. -/
def camStop (s : CamStopState) : CamStopState :=
  { stopFlag := true
    threadAlive := false
    captureOpen := false
    connected := false
    releases := s.releases + (if s.captureOpen then 1 else 0) }

/-- The fields of `PlaybackController` that `stop`
(playback_controller.py:318-335) touches. -/
structure PCStopState where
  playing : Bool
  stopFlag : Bool
  playbackThreadAlive : Bool
  prefetchThreadAlive : Bool
  captureOpen : Bool
  releases : Nat
deriving DecidableEq, Repr

/-- `PlaybackController.stop`: clear the playing flag, set the stop event,
join and clear both worker threads if present, release and clear the
capture if present. -/
def pcStop (s : PCStopState) : PCStopState :=
  { playing := false
    stopFlag := true
    playbackThreadAlive := false
    prefetchThreadAlive := false
    captureOpen := false
    releases := s.releases + (if s.captureOpen then 1 else 0) }

/-! ## Helper lemmas -/

theorem evictToBelow_length_lt {cap : Nat} (hcap : 1 ≤ cap) (l : List α) :
    (evictToBelow cap l).length < cap := by
  induction l with
  | nil => simpa [evictToBelow] using hcap
  | cons x xs ih =>
    simp only [evictToBelow]
    split
    · exact ih
    · next h => exact Nat.lt_of_not_le h

theorem evictToBelow_eq_self {cap : Nat} {l : List α} (h : l.length < cap) :
    evictToBelow cap l = l := by
  cases l with
  | nil => rfl
  | cons x xs =>
    simp only [evictToBelow]
    rw [if_neg (Nat.not_le_of_lt h)]

theorem evictToBelow_eq_drop {cap : Nat} (l : List α) :
    evictToBelow cap l = l.drop (l.length + 1 - cap) := by
  induction l with
  | nil => simp [evictToBelow]
  | cons x xs ih =>
    simp only [evictToBelow]
    split
    · next h =>
      rw [ih]
      have hidx : (x :: xs).length + 1 - cap = (xs.length + 1 - cap) + 1 := by
        simp only [List.length_cons] at h ⊢
        omega
      rw [hidx, List.drop_succ_cons]
    · next h =>
      have hidx : (x :: xs).length + 1 - cap = 0 := by
        simp only [List.length_cons] at h ⊢
        omega
      rw [hidx, List.drop_zero]

theorem moveToEnd_length_le (k : Int) (l : List (Int × α)) :
    (moveToEnd k l).length ≤ l.length := by
  cases h : l.find? (fun p => p.1 = k) with
  | none => simp [moveToEnd, h]
  | some e =>
    have he : e ∈ l := List.mem_of_find?_eq_some h
    have hk : e.1 = k := by simpa using List.find?_some h
    have hlt : (l.filter (fun p => ¬ p.1 = k)).length < l.length := by
      refine List.length_filter_lt_length_iff_exists.mpr ⟨e, he, ?_⟩
      simp [hk]
    simp only [moveToEnd, h, List.length_append, List.length_cons, List.length_nil]
    omega

theorem moveToEnd_perm (k : Int) (l : List (Int × α))
    (h : (l.map Prod.fst).Nodup) : (moveToEnd k l).Perm l := by
  induction l with
  | nil => simp [moveToEnd]
  | cons x xs ih =>
    have hx0 : x.1 ∉ xs.map Prod.fst := by
      simp only [List.map_cons, List.nodup_cons] at h
      exact h.1
    have hxs : (xs.map Prod.fst).Nodup := by
      simp only [List.map_cons, List.nodup_cons] at h
      exact h.2
    by_cases hx : x.1 = k
    · have hfilter : xs.filter (fun p => ¬ p.1 = k) = xs := by
        refine List.filter_eq_self.mpr ?_
        intro p hp
        simp only [decide_eq_true_eq]
        intro hpk
        have hmem : p.1 ∈ xs.map Prod.fst := List.mem_map_of_mem Prod.fst hp
        rw [hpk, ← hx] at hmem
        exact hx0 hmem
      have hfind : (x :: xs).find? (fun p => p.1 = k) = some x :=
        List.find?_cons_of_pos _ (by simp [hx])
      have hfilter2 : (x :: xs).filter (fun p => ¬ p.1 = k) = xs := by
        rw [List.filter_cons, if_neg (by simp [hx])]
        exact hfilter
      rw [show moveToEnd k (x :: xs) = xs ++ [x] by
        simp only [moveToEnd, hfind, hfilter2]]
      exact List.perm_append_singleton x xs
    · have hfind : (x :: xs).find? (fun p => p.1 = k) = xs.find? (fun p => p.1 = k) :=
        List.find?_cons_of_neg _ (by simp [hx])
      cases he : xs.find? (fun p => p.1 = k) with
      | none =>
        rw [show moveToEnd k (x :: xs) = x :: xs by
          simp only [moveToEnd, hfind, he]]
      | some e =>
        have htail : moveToEnd k xs = xs.filter (fun p => ¬ p.1 = k) ++ [e] := by
          simp only [moveToEnd, he]
        have hq : (x :: xs).filter (fun p => ¬ p.1 = k) =
            x :: xs.filter (fun p => ¬ p.1 = k) := by
          rw [List.filter_cons, if_pos (by simp [hx])]
        rw [show moveToEnd k (x :: xs) =
            x :: (xs.filter (fun p => ¬ p.1 = k) ++ [e]) by
          simp only [moveToEnd, hfind, he, hq, List.cons_append]]
        exact (htail ▸ ih hxs).cons x

theorem find?_isSome_of_mem_keys {k : Int} {l : List (Int × α)}
    (h : k ∈ l.map Prod.fst) : (l.find? (fun p => p.1 = k)).isSome := by
  rcases List.mem_map.mp h with ⟨e, he, hk⟩
  exact List.find?_isSome.mpr ⟨e, he, by simp [hk]⟩

theorem find?_eq_none_of_not_mem_keys {k : Int} {l : List (Int × α)}
    (h : k ∉ l.map Prod.fst) : l.find? (fun p => p.1 = k) = none := by
  refine List.find?_eq_none.mpr ?_
  intro e he
  simp only [decide_eq_true_eq]
  intro hk
  exact h (by simpa [hk] using List.mem_map_of_mem Prod.fst he)

theorem fcPut_length_le {cap : Nat} (hcap : 1 ≤ cap) (l : List (Int × α))
    (hl : l.length ≤ cap) (k : Int) (v : α) : (fcPut cap l k v).length ≤ cap := by
  unfold fcPut
  split
  · exact le_trans (moveToEnd_length_le k l) hl
  · have := evictToBelow_length_lt hcap (l := l)
    simp only [List.length_append, List.length_cons, List.length_nil, Nat.zero_add]
    omega

theorem fcPutFold_length_le {cap : Nat} (hcap : 1 ≤ cap) (ps : List (Int × α)) :
    ∀ l : List (Int × α), l.length ≤ cap →
      (ps.foldl (fun s p => fcPut cap s p.1 p.2) l).length ≤ cap := by
  induction ps with
  | nil => intro l hl; exact hl
  | cons p ps ih =>
    intro l hl
    exact ih _ (fcPut_length_le hcap l hl p.1 p.2)

theorem fcPutSeq_distinct {cap : Nat} (hcap : 1 ≤ cap) (ps : List (Int × α))
    (h : (ps.map Prod.fst).Nodup) :
    fcPutSeq cap ps = ps.drop (ps.length - cap) := by
  induction ps using List.reverseRecOn with
  | nil => simp [fcPutSeq]
  | append_singleton ps p ih =>
    have hps : (ps.map Prod.fst).Nodup := by
      simp only [List.map_append, List.nodup_append] at h
      exact h.1
    have hnotin : p.1 ∉ ps.map Prod.fst := by
      simp only [List.map_append, List.nodup_append] at h
      intro hmem
      exact h.2.2 hmem (by simp)
    have hstate : fcPutSeq cap ps = ps.drop (ps.length - cap) := ih hps
    have hstep : fcPutSeq cap (ps ++ [p]) = fcPut cap (fcPutSeq cap ps) p.1 p.2 := by
      unfold fcPutSeq
      rw [List.foldl_append]
      rfl
    have hkeys : p.1 ∉ (fcPutSeq cap ps).map Prod.fst := by
      rw [hstate]
      intro hmem
      rcases List.mem_map.mp hmem with ⟨e, he, hk⟩
      exact hnotin (by
        have : e ∈ ps := List.mem_of_mem_drop he
        simpa [hk] using List.mem_map_of_mem Prod.fst this)
    have hnone : ((fcPutSeq cap ps).find? (fun q => q.1 = p.1)) = none :=
      find?_eq_none_of_not_mem_keys hkeys
    rw [hstep]
    unfold fcPut
    rw [hnone]
    simp only [Option.isSome_none, Bool.false_eq_true, if_false]
    rw [evictToBelow_eq_drop, hstate, List.drop_drop, List.length_drop]
    have hle : (ps ++ [p]).length - cap ≤ ps.length := by
      simp only [List.length_append, List.length_cons, List.length_nil]
      omega
    rw [List.drop_append_of_le_length hle]
    refine congrArg₂ (· ++ ·) ?_ (by simp)
    have hlen : (ps ++ [p]).length = ps.length + 1 := by simp
    congr 1
    rw [hlen]
    omega

theorem sorted_getD_mono {a : List Int} (hs : a.Sorted (· ≤ ·)) {i j : Nat}
    (hij : i ≤ j) (hj : j < a.length) : a.getD i 0 ≤ a.getD j 0 := by
  have hi : i < a.length := Nat.lt_of_le_of_lt hij hj
  rw [List.getD_eq_getElem a 0 hi, List.getD_eq_getElem a 0 hj]
  exact hs.rel_get_of_le (a := ⟨i, hi⟩) (b := ⟨j, hj⟩) hij

theorem bisectLoop_inv (a : List Int) (x : Int) (hs : a.Sorted (· ≤ ·)) :
    ∀ (fuel lo hi : Nat), lo ≤ hi → hi ≤ a.length → hi - lo ≤ fuel →
    (∀ j, j < lo → a.getD j 0 < x) →
    (∀ j, hi ≤ j → j < a.length → x ≤ a.getD j 0) →
    (∀ j, j < bisectLoop a x lo hi fuel → a.getD j 0 < x) ∧
    (∀ j, bisectLoop a x lo hi fuel ≤ j → j < a.length → x ≤ a.getD j 0) ∧
    lo ≤ bisectLoop a x lo hi fuel ∧ bisectLoop a x lo hi fuel ≤ hi := by
  intro fuel
  induction fuel with
  | zero =>
    intro lo hi hlohi hhi hfuel hlow hhigh
    have heq : lo = hi := by omega
    subst heq
    simp only [bisectLoop]
    exact ⟨hlow, fun j hj1 hj2 => hhigh j hj1 hj2, le_refl _, le_refl _⟩
  | succ fuel ih =>
    intro lo hi hlohi hhi hfuel hlow hhigh
    by_cases hlt : lo < hi
    · rw [bisectLoop, if_pos hlt]
      by_cases hcmp : a.getD ((lo + hi) / 2) 0 < x
      · rw [if_pos hcmp]
        have hres := ih ((lo + hi) / 2 + 1) hi (by omega) hhi (by omega) ?_ hhigh
        · exact ⟨hres.1, hres.2.1, by omega, hres.2.2.2⟩
        · intro j hj
          have hjle : j ≤ (lo + hi) / 2 := by omega
          have hmidlt : (lo + hi) / 2 < a.length := by omega
          exact lt_of_le_of_lt (sorted_getD_mono hs hjle hmidlt) hcmp
      · rw [if_neg hcmp]
        have hres := ih lo ((lo + hi) / 2) (by omega) (by omega) (by omega)
          hlow ?_
        · exact ⟨hres.1, hres.2.1, hres.2.2.1, by omega⟩
        · intro j hj1 hj2
          exact le_trans (Int.not_lt.mp hcmp) (sorted_getD_mono hs hj1 hj2)
    · rw [bisectLoop, if_neg hlt]
      have heq : lo = hi := by omega
      exact ⟨hlow, fun j hj1 hj2 => hhigh j (heq ▸ hj1) hj2, le_refl _, hlohi⟩

theorem bisectLeft_spec (a : List Int) (x : Int) (hs : a.Sorted (· ≤ ·)) :
    bisectLeft a x ≤ a.length ∧
    (∀ j, j < bisectLeft a x → a.getD j 0 < x) ∧
    (∀ j, bisectLeft a x ≤ j → j < a.length → x ≤ a.getD j 0) := by
  have h := bisectLoop_inv a x hs a.length 0 a.length (Nat.zero_le _)
    (le_refl _) (by omega) (fun j hj => absurd hj (Nat.not_lt_zero j))
    (fun j hj1 hj2 => absurd hj2 (Nat.not_lt.mpr hj1))
  exact ⟨h.2.2.2, h.1, h.2.1⟩

theorem nearCands_mem (ks : List Int) (t : Int) (hs : ks.Sorted (· ≤ ·))
    {c : Int} (hc : c ∈ nearCands ks t) : c ∈ ks := by
  obtain ⟨hlen, -, -⟩ := bisectLeft_spec ks t hs
  unfold nearCands at hc
  rcases List.mem_append.mp hc with h | h
  · by_cases h0 : 0 < bisectLeft ks t
    · rw [if_pos h0] at h
      have hidx : bisectLeft ks t - 1 < ks.length := by omega
      rw [List.mem_singleton.mp h, List.getD_eq_getElem ks 0 hidx]
      exact List.getElem_mem hidx
    · rw [if_neg h0] at h
      exact absurd h (List.not_mem_nil c)
  · by_cases h1 : bisectLeft ks t < ks.length
    · rw [if_pos h1] at h
      rw [List.mem_singleton.mp h, List.getD_eq_getElem ks 0 h1]
      exact List.getElem_mem h1
    · rw [if_neg h1] at h
      exact absurd h (List.not_mem_nil c)

theorem nearCands_min (ks : List Int) (t : Int) (hs : ks.Sorted (· ≤ ·))
    {k : Int} (hk : k ∈ ks) :
    ∃ c ∈ nearCands ks t, |c - t| ≤ |k - t| := by
  obtain ⟨j, hj, hget⟩ := List.mem_iff_getElem.mp hk
  have hkj : ks.getD j 0 = k := by
    rw [List.getD_eq_getElem ks 0 hj]
    exact hget
  obtain ⟨hlen, hlow, hhigh⟩ := bisectLeft_spec ks t hs
  by_cases hji : j < bisectLeft ks t
  · have h0 : 0 < bisectLeft ks t := by omega
    have hidx : bisectLeft ks t - 1 < ks.length := by omega
    refine ⟨ks.getD (bisectLeft ks t - 1) 0, ?_, ?_⟩
    · unfold nearCands
      rw [if_pos h0]
      exact List.mem_append_left _ (by simp)
    · have hk_le : ks.getD j 0 ≤ ks.getD (bisectLeft ks t - 1) 0 :=
        sorted_getD_mono hs (by omega) hidx
      have hpred_lt : ks.getD (bisectLeft ks t - 1) 0 < t := hlow _ (by omega)
      have e1 : |ks.getD (bisectLeft ks t - 1) 0 - t| =
          t - ks.getD (bisectLeft ks t - 1) 0 := by
        rw [abs_of_neg (by omega)]
        ring
      have e2 : |k - t| = t - k := by
        rw [abs_of_neg (by omega)]
        ring
      rw [e1, e2]
      omega
  · have h1 : bisectLeft ks t < ks.length := by omega
    refine ⟨ks.getD (bisectLeft ks t) 0, ?_, ?_⟩
    · unfold nearCands
      rw [if_pos h1]
      exact List.mem_append_right _ (by simp)
    · have hsucc_ge : t ≤ ks.getD (bisectLeft ks t) 0 := hhigh _ (le_refl _) h1
      have hle : ks.getD (bisectLeft ks t) 0 ≤ ks.getD j 0 :=
        sorted_getD_mono hs (by omega) hj
      have e1 : |ks.getD (bisectLeft ks t) 0 - t| =
          ks.getD (bisectLeft ks t) 0 - t := abs_of_nonneg (by omega)
      have e2 : |k - t| = k - t := abs_of_nonneg (by omega)
      rw [e1, e2]
      omega

theorem fcGetNearest_eq (l : List (Int × α)) (t d : Int) (hne : l ≠ []) :
    fcGetNearest l t d =
      match (nearCands (l.map Prod.fst) t).find? (fun k => |k - t| ≤ d) with
      | some k =>
        match l.find? (fun p => p.1 = k) with
        | some e => some (e.1, e.2)
        | none => none
      | none => none := by
  cases l with
  | nil => exact absurd rfl hne
  | cons p ps => rfl

theorem tcBestKey_eq (ks : List Int) (t d : Int) (hne : ks ≠ []) :
    tcBestKey ks t d =
      ((nearCands ks t).foldl (tcConsider t d) none).map Prod.snd := by
  cases ks with
  | nil => exact absurd rfl hne
  | cons k ks => rfl

theorem tcFold_some_mono (t d : Int) (cs : List Int) :
    ∀ bd bk : Int, ∃ r : Int × Int,
      cs.foldl (tcConsider t d) (some (bd, bk)) = some r ∧ r.1 ≤ bd := by
  induction cs with
  | nil =>
    intro bd bk
    exact ⟨(bd, bk), rfl, le_refl _⟩
  | cons c cs ih =>
    intro bd bk
    rw [List.foldl_cons]
    by_cases h : |c - t| < bd ∧ |c - t| ≤ d
    · have hstep : tcConsider t d (some (bd, bk)) c = some (|c - t|, c) := by
        simp only [tcConsider]
        rw [if_pos h]
      rw [hstep]
      obtain ⟨r, hr, hle⟩ := ih |c - t| c
      exact ⟨r, hr, le_trans hle (le_of_lt h.1)⟩
    · have hstep : tcConsider t d (some (bd, bk)) c = some (bd, bk) := by
        simp only [tcConsider]
        rw [if_neg h]
      rw [hstep]
      exact ih bd bk

theorem tcFold_none_spec (t d : Int) (cs : List Int) :
    ∀ acc, cs.foldl (tcConsider t d) acc = none →
      acc = none ∧ ∀ c ∈ cs, d < |c - t| := by
  induction cs with
  | nil =>
    intro acc h
    exact ⟨h, by simp⟩
  | cons c cs ih =>
    intro acc h
    rw [List.foldl_cons] at h
    obtain ⟨hstep, hrest⟩ := ih _ h
    cases acc with
    | some b =>
      exfalso
      obtain ⟨bd, bk⟩ := b
      simp only [tcConsider] at hstep
      split at hstep <;> simp at hstep
    | none =>
      simp only [tcConsider] at hstep
      by_cases hc : |c - t| ≤ d
      · rw [if_pos hc] at hstep
        exact absurd hstep (by simp)
      · refine ⟨rfl, ?_⟩
        intro c0 hc0
        rcases List.mem_cons.mp hc0 with rfl | hmem
        · exact Int.not_le.mp hc
        · exact hrest c0 hmem

theorem tcFold_sound (t d : Int) (cs : List Int) :
    ∀ acc, (∀ ad ak : Int, acc = some (ad, ak) → ad = |ak - t| ∧ ad ≤ d) →
    ∀ bd bk : Int, cs.foldl (tcConsider t d) acc = some (bd, bk) →
      bd = |bk - t| ∧ bd ≤ d ∧ (bk ∈ cs ∨ acc = some (bd, bk)) := by
  induction cs with
  | nil =>
    intro acc hacc bd bk h
    simp only [List.foldl_nil] at h
    obtain ⟨h1, h2⟩ := hacc bd bk h
    exact ⟨h1, h2, Or.inr h⟩
  | cons c cs ih =>
    intro acc hacc bd bk h
    rw [List.foldl_cons] at h
    have hacc2 : ∀ ad ak : Int, tcConsider t d acc c = some (ad, ak) →
        ad = |ak - t| ∧ ad ≤ d := by
      intro ad ak hstep
      cases acc with
      | none =>
        simp only [tcConsider] at hstep
        by_cases hc : |c - t| ≤ d
        · rw [if_pos hc] at hstep
          simp only [Option.some.injEq, Prod.mk.injEq] at hstep
          obtain ⟨h1, h2⟩ := hstep
          subst h1
          subst h2
          exact ⟨rfl, hc⟩
        · rw [if_neg hc] at hstep
          exact absurd hstep (by simp)
      | some b =>
        obtain ⟨ad0, ak0⟩ := b
        simp only [tcConsider] at hstep
        split at hstep
        · next hcond =>
          simp only [Option.some.injEq, Prod.mk.injEq] at hstep
          obtain ⟨h1, h2⟩ := hstep
          subst h1
          subst h2
          exact ⟨rfl, hcond.2⟩
        · simp only [Option.some.injEq, Prod.mk.injEq] at hstep
          obtain ⟨h1, h2⟩ := hstep
          subst h1
          subst h2
          exact hacc _ _ rfl
    obtain ⟨h1, h2, h3⟩ := ih _ hacc2 bd bk h
    refine ⟨h1, h2, ?_⟩
    rcases h3 with hmem | heq
    · exact Or.inl (List.mem_cons_of_mem c hmem)
    · cases acc with
      | none =>
        simp only [tcConsider] at heq
        by_cases hc : |c - t| ≤ d
        · rw [if_pos hc] at heq
          simp only [Option.some.injEq, Prod.mk.injEq] at heq
          exact Or.inl (heq.2 ▸ List.mem_cons_self c cs)
        · rw [if_neg hc] at heq
          exact absurd heq (by simp)
      | some b =>
        obtain ⟨ad0, ak0⟩ := b
        simp only [tcConsider] at heq
        split at heq
        · simp only [Option.some.injEq, Prod.mk.injEq] at heq
          exact Or.inl (heq.2 ▸ List.mem_cons_self c cs)
        · exact Or.inr heq

theorem tcFold_min (t d : Int) (cs : List Int) :
    ∀ acc (bd bk : Int), cs.foldl (tcConsider t d) acc = some (bd, bk) →
      ∀ c ∈ cs, |c - t| ≤ d → bd ≤ |c - t| := by
  induction cs with
  | nil =>
    intro acc bd bk h c hc
    exact absurd hc (List.not_mem_nil c)
  | cons c0 cs ih =>
    intro acc bd bk h c hc hcd
    rw [List.foldl_cons] at h
    rcases List.mem_cons.mp hc with rfl | hmem
    · have hstep : ∃ ad ak : Int,
          tcConsider t d acc c = some (ad, ak) ∧ ad ≤ |c - t| := by
        cases acc with
        | none =>
          refine ⟨|c - t|, c, ?_, le_refl _⟩
          simp only [tcConsider]
          rw [if_pos hcd]
        | some b =>
          obtain ⟨ad0, ak0⟩ := b
          by_cases hlt : |c - t| < ad0 ∧ |c - t| ≤ d
          · refine ⟨|c - t|, c, ?_, le_refl _⟩
            simp only [tcConsider]
            rw [if_pos hlt]
          · refine ⟨ad0, ak0, ?_, ?_⟩
            · simp only [tcConsider]
              rw [if_neg hlt]
            · have hnlt : ¬ |c - t| < ad0 := fun hA => hlt ⟨hA, hcd⟩
              exact Int.not_lt.mp hnlt
      obtain ⟨ad, ak, hstep2, hle⟩ := hstep
      rw [hstep2] at h
      obtain ⟨r, hr, hrle⟩ := tcFold_some_mono t d cs ad ak
      have hreq : r = (bd, bk) := by
        have := hr.symm.trans h
        exact Option.some.inj this
      have : bd ≤ ad := by
        have h1 : r.1 ≤ ad := hrle
        rw [hreq] at h1
        exact h1
      exact le_trans this hle
    · exact ih _ bd bk h c hmem hcd

theorem tcBestKey_spec (ks : List Int) (t d : Int) (hs : ks.Sorted (· ≤ ·)) :
    (∀ k, tcBestKey ks t d = some k →
      k ∈ ks ∧ |k - t| ≤ d ∧ ∀ k0 ∈ ks, |k - t| ≤ |k0 - t|) ∧
    (tcBestKey ks t d = none → ∀ k ∈ ks, d < |k - t|) := by
  cases hks : ks with
  | nil =>
    constructor
    · intro k h
      exact absurd h (by simp [tcBestKey])
    · intro h k hk
      exact absurd hk (List.not_mem_nil k)
  | cons k0 ks0 =>
    rw [← hks]
    have hne : ks ≠ [] := by rw [hks]; exact List.cons_ne_nil k0 ks0
    rw [tcBestKey_eq ks t d hne] at *
    constructor
    · intro k h
      obtain ⟨b, hb, hsnd⟩ := Option.map_eq_some'.mp h
      obtain ⟨bd, bk⟩ := b
      have hbk : bk = k := hsnd
      subst hbk
      obtain ⟨h1, h2, h3⟩ :=
        tcFold_sound t d (nearCands ks t) none (by intro ad ak hh; cases hh)
          bd bk hb
      have hmem : bk ∈ ks := by
        rcases h3 with hm | hm
        · exact nearCands_mem ks t hs hm
        · cases hm
      refine ⟨hmem, h1 ▸ h2, ?_⟩
      intro k0 hk0
      obtain ⟨c, hcmem, hcle⟩ := nearCands_min ks t hs hk0
      rcases le_or_lt |bk - t| |k0 - t| with hgood | hbad
      · exact hgood
      · have hcd : |c - t| ≤ d := by
          have : |bk - t| ≤ d := h1 ▸ h2
          omega
        have hmin : bd ≤ |c - t| := tcFold_min t d (nearCands ks t) none bd bk hb c hcmem hcd
        rw [h1] at hmin
        omega
    · intro h k hk
      have hfold : (nearCands ks t).foldl (tcConsider t d) none = none :=
        Option.map_eq_none'.mp h
      obtain ⟨-, hall⟩ := tcFold_none_spec t d (nearCands ks t) none hfold
      obtain ⟨c, hcmem, hcle⟩ := nearCands_min ks t hs hk
      have := hall c hcmem
      omega

theorem poolStep_length_le {maxStreams : Nat} (hmax : 1 ≤ maxStreams)
    (l : List Int) (hl : l.length ≤ maxStreams) (a : PoolAction) :
    (poolStep maxStreams l a).length ≤ maxStreams := by
  cases a with
  | start id =>
    simp only [poolStep, poolStart]
    split
    · next h =>
      simp only [List.length_append, List.length_cons, List.length_nil]
      rw [List.length_erase_of_mem h]
      have hpos : 0 < l.length := List.length_pos_of_mem h
      omega
    · have := evictToBelow_length_lt hmax l
      simp only [List.length_append, List.length_cons, List.length_nil]
      omega
  | stop id =>
    simp only [poolStep, poolStop]
    split
    · next h =>
      rw [List.length_erase_of_mem h]
      omega
    · exact hl
  | touch id =>
    simp only [poolStep, poolTouch]
    split
    · next h =>
      simp only [List.length_append, List.length_cons, List.length_nil]
      rw [List.length_erase_of_mem h]
      have hpos : 0 < l.length := List.length_pos_of_mem h
      omega
    · exact hl

theorem poolFold_length_le {maxStreams : Nat} (hmax : 1 ≤ maxStreams)
    (acts : List PoolAction) :
    ∀ l : List Int, l.length ≤ maxStreams →
      (acts.foldl (poolStep maxStreams) l).length ≤ maxStreams := by
  induction acts with
  | nil => intro l hl; exact hl
  | cons a acts ih =>
    intro l hl
    exact ih _ (poolStep_length_le hmax l hl a)

/-! ## C1: cache capacity bound -/

/-- C1: for every sequence of `FrameCache.put` calls the cache never holds
more than `max_frames` entries (checked after every prefix of the
sequence), and when all timestamps are pairwise distinct the retained
entries are exactly the `capacity` most recently inserted ones — the
final suffix of the insertion sequence. -/
theorem C1_cache_bound (cap : Nat) (hcap : 1 ≤ cap) :
    (∀ ps : List (Int × α), ∀ n : Nat,
      (fcPutSeq cap (ps.take n)).length ≤ cap) ∧
    (∀ ps : List (Int × α), (ps.map Prod.fst).Nodup →
      fcPutSeq cap ps = ps.drop (ps.length - cap)) := by
  constructor
  · intro ps n
    exact fcPutFold_length_le hcap (ps.take n) [] (by simp)
  · intro ps h
    exact fcPutSeq_distinct hcap ps h

/-- C1 witness (Scenario A): capacity 3, puts at 100, 200, 300, 400 retain
exactly the entries 200, 300, 400, and `get(100)` returns nothing. -/
theorem C1_cache_bound_witness :
    fcPutSeq 3 [((100 : Int), (1 : Nat)), (200, 2), (300, 3), (400, 4)] =
      [(200, 2), (300, 3), (400, 4)] ∧
    (fcPutSeq 3 [((100 : Int), (1 : Nat)), (200, 2), (300, 3), (400, 4)]).length
      ≤ 3 ∧
    (fcGet (fcPutSeq 3 [((100 : Int), (1 : Nat)), (200, 2), (300, 3), (400, 4)])
      100).1 = none := by
  have h := C1_cache_bound (α := Nat) 3 (by decide)
  refine ⟨?_, ?_, by decide⟩
  · have h2 := h.2 [(100, 1), (200, 2), (300, 3), (400, 4)] (by decide)
    simpa using h2
  · have h1 := h.1 [(100, 1), (200, 2), (300, 3), (400, 4)] 4
    simpa using h1

/-! ## C2: pool capacity invariant -/

/-- C2: for every sequence of `start_stream` / `stop_stream` /
`touch_stream` calls the pool never holds more than `max_streams`
connections (checked after every prefix), and `start_stream` for an
already-present camera id only promotes the existing connection — the
connection count is unchanged, no new connection is created. -/
theorem C2_pool_capacity (maxStreams : Nat) (hmax : 1 ≤ maxStreams) :
    (∀ acts : List PoolAction, ∀ n : Nat,
      (poolRun maxStreams (acts.take n)).length ≤ maxStreams) ∧
    (∀ (l : List Int) (id : Int), id ∈ l →
      poolStart maxStreams l id = l.erase id ++ [id] ∧
      (poolStart maxStreams l id).length = l.length) := by
  constructor
  · intro acts n
    exact poolFold_length_le hmax (acts.take n) [] (by simp)
  · intro l id h
    constructor
    · simp only [poolStart]
      rw [if_pos h]
    · simp only [poolStart, if_pos h, List.length_append, List.length_cons,
        List.length_nil]
      rw [List.length_erase_of_mem h]
      have hpos : 0 < l.length := List.length_pos_of_mem h
      omega

/-- C2 witness: three acquisitions on a pool of limit 2 stay within the
limit, and re-acquiring a present id reuses the connection. -/
theorem C2_pool_capacity_witness :
    (poolRun 2 [PoolAction.start 1, .start 2, .start 3]).length ≤ 2 ∧
    poolStart 2 [2, 3] 3 = [2, 3].erase 3 ++ [3] ∧
    (poolStart 2 [2, 3] 3).length = 2 := by
  have h := C2_pool_capacity 2 (by decide)
  refine ⟨?_, (h.2 [2, 3] 3 (by decide)).1, (h.2 [2, 3] 3 (by decide)).2⟩
  have h1 := h.1 [PoolAction.start 1, .start 2, .start 3] 3
  simpa using h1

/-! ## C5: LRU eviction order and touch protection -/

/-- C5: `start_stream` of a new camera on a pool exactly at capacity
evicts precisely the least-recently-used (front) connection, and
`touch_stream` promotes a present connection to most recently used. -/
theorem C5_lru_eviction (maxStreams : Nat) (l : List Int) (id : Int) :
    (l.length = maxStreams → id ∉ l →
      poolStart maxStreams l id = l.tail ++ [id]) ∧
    (id ∈ l → poolTouch l id = l.erase id ++ [id]) := by
  constructor
  · intro hlen hid
    simp only [poolStart]
    rw [if_neg hid]
    congr 1
    rw [evictToBelow_eq_drop]
    have hone : l.length + 1 - maxStreams = 1 := by omega
    rw [hone, List.drop_one]
  · intro h
    simp only [poolTouch]
    rw [if_pos h]

/-- C5 witness (Scenario B): with limit 2, acquiring cameras 1, 2, 3
evicts 1 (the LRU) leaving [2, 3]; after `touch(2)` a fourth acquisition
evicts 3, not 2; and on the pool [2, 3] the next eviction victim is the
front element. -/
theorem C5_lru_eviction_witness :
    poolRun 2 [PoolAction.start 1, .start 2, .start 3] = [2, 3] ∧
    poolRun 2 [PoolAction.start 1, .start 2, .start 3, .touch 2, .start 4] =
      [2, 4] ∧
    poolStart 2 [2, 3] 4 = [3, 4] := by
  refine ⟨by decide, by decide, ?_⟩
  have h := (C5_lru_eviction 2 [2, 3] 4).1 (by decide) (by decide)
  simpa using h

theorem sorted_le_getLastD (k : Int) (ks : List Int)
    (hs : (k :: ks).Sorted (· ≤ ·)) :
    ∀ x ∈ k :: ks, x ≤ (k :: ks).getLastD k := by
  induction ks generalizing k with
  | nil =>
    intro x hx
    rw [List.mem_singleton.mp hx]
    simp [List.getLastD]
  | cons k2 ks ih =>
    intro x hx
    have hs2 : (k2 :: ks).Sorted (· ≤ ·) := (List.sorted_cons.mp hs).2
    have hk12 : k ≤ k2 := (List.sorted_cons.mp hs).1 k2 (by simp)
    have hlast : (k :: k2 :: ks).getLastD k = (k2 :: ks).getLastD k2 := by
      rw [List.getLastD_eq_getLast?, List.getLastD_eq_getLast?,
        List.getLast?_eq_getLast (k :: k2 :: ks) (by simp),
        List.getLast?_eq_getLast (k2 :: ks) (by simp),
        Option.getD_some, Option.getD_some]
      exact List.getLast_cons (by simp)
    rw [hlast]
    rcases List.mem_cons.mp hx with rfl | hmem
    · exact le_trans hk12 (ih k2 hs2 k2 (by simp))
    · exact ih k2 hs2 x hmem

theorem getLastD_mem (k : Int) (ks : List Int) :
    (k :: ks).getLastD k ∈ k :: ks := by
  have h : (k :: ks).getLastD k = (k :: ks).getLast (List.cons_ne_nil k ks) := by
    simp [List.getLastD_eq_getLast?, List.getLast?_eq_getLast]
  rw [h]
  exact List.getLast_mem _

/-! ## C3: nearest lookup -/

/-- C3 counterexample: `FrameCache.get_nearest` does not return the key
minimizing the distance to the query.  With cached keys 0 and 10 and a
query at 9 with tolerance 100, it returns key 0 (distance 9) because the
insertion-point predecessor is checked first, although key 10 is strictly
closer (distance 1). -/
theorem C3_counterexample :
    fcGetNearest (fcPutSeq 300 [((0 : Int), (1 : Nat)), (10, 2)]) 9 100 =
      some (0, 1) ∧
    (10 : Int) ∈ (fcPutSeq 300 [((0 : Int), (1 : Nat)), (10, 2)]).map Prod.fst ∧
    |(10 : Int) - 9| < |(0 : Int) - 9| := by decide

/-- C3 (amended): on a cache whose key list is sorted, both lookups return
a cached key within `max_delta` and return nothing exactly when no key
lies within `max_delta`; `FrameCache.get_nearest` prefers the
insertion-point predecessor whenever it is in tolerance — even when the
successor is strictly closer, so its result need not minimize `|k - t|` —
while `ThumbnailCache.get_nearest` does return a key minimizing `|k - t|`
among all cached keys. -/
theorem C3_nearest_amended (l : List (Int × α)) (t d : Int)
    (hs : (l.map Prod.fst).Sorted (· ≤ ·)) :
    (∀ (k : Int) (v : α), fcGetNearest l t d = some (k, v) →
      (k, v) ∈ l ∧ |k - t| ≤ d) ∧
    (fcGetNearest l t d = none → ∀ k ∈ l.map Prod.fst, d < |k - t|) ∧
    (0 < bisectLeft (l.map Prod.fst) t →
      |(l.map Prod.fst).getD (bisectLeft (l.map Prod.fst) t - 1) 0 - t| ≤ d →
      ∃ v : α, fcGetNearest l t d =
        some ((l.map Prod.fst).getD (bisectLeft (l.map Prod.fst) t - 1) 0, v)) ∧
    (∀ k : Int, tcBestKey (l.map Prod.fst) t d = some k →
      k ∈ l.map Prod.fst ∧ |k - t| ≤ d ∧
      ∀ k0 ∈ l.map Prod.fst, |k - t| ≤ |k0 - t|) ∧
    (tcBestKey (l.map Prod.fst) t d = none →
      ∀ k ∈ l.map Prod.fst, d < |k - t|) := by
  refine ⟨?_, ?_, ?_, (tcBestKey_spec (l.map Prod.fst) t d hs).1,
    (tcBestKey_spec (l.map Prod.fst) t d hs).2⟩
  · intro k v h
    cases l with
    | nil => exact absurd h (by simp [fcGetNearest])
    | cons p ps =>
      rw [fcGetNearest_eq _ t d (List.cons_ne_nil p ps)] at h
      split at h
      · next k1 hfind1 =>
        split at h
        · next e hfind2 =>
          simp only [Option.some.injEq, Prod.mk.injEq] at h
          obtain ⟨hk, hv⟩ := h
          have hep : e ∈ p :: ps := List.mem_of_find?_eq_some hfind2
          have hek : e.1 = k1 := by simpa using List.find?_some hfind2
          have hk1d : |k1 - t| ≤ d := by simpa using List.find?_some hfind1
          constructor
          · rw [← hk, ← hv, Prod.mk.eta]
            exact hep
          · rw [← hk, hek]
            exact hk1d
        · exact absurd h (by simp)
      · exact absurd h (by simp)
  · intro h k hk
    cases l with
    | nil => exact absurd hk (by simp)
    | cons p ps =>
      rw [fcGetNearest_eq _ t d (List.cons_ne_nil p ps)] at h
      split at h
      · next k1 hfind1 =>
        split at h
        · next e hfind2 => exact absurd h (by simp)
        · next hfind2 =>
          exfalso
          have hk1mem : k1 ∈ nearCands ((p :: ps).map Prod.fst) t :=
            List.mem_of_find?_eq_some hfind1
          have hk1keys : k1 ∈ (p :: ps).map Prod.fst :=
            nearCands_mem _ t hs hk1mem
          have := find?_isSome_of_mem_keys hk1keys
          rw [hfind2] at this
          exact absurd this (by simp)
      · next hfind1 =>
        have hnone := List.find?_eq_none.mp hfind1
        obtain ⟨c, hcmem, hcle⟩ := nearCands_min _ t hs hk
        have hcd : ¬ |c - t| ≤ d := by simpa using hnone c hcmem
        exact lt_of_lt_of_le (Int.not_le.mp hcd) hcle
  · intro h0 hpd
    cases l with
    | nil =>
      exfalso
      simp only [List.map_nil] at h0
      norm_num [bisectLeft, bisectLoop] at h0
    | cons p ps =>
      have hne : (p :: ps) ≠ ([] : List (Int × α)) := List.cons_ne_nil p ps
      rw [fcGetNearest_eq _ t d hne]
      have hfind1 : (nearCands ((p :: ps).map Prod.fst) t).find?
          (fun c => |c - t| ≤ d) =
          some (((p :: ps).map Prod.fst).getD
            (bisectLeft ((p :: ps).map Prod.fst) t - 1) 0) := by
        unfold nearCands
        rw [if_pos h0, List.singleton_append]
        exact List.find?_cons_of_pos _ (by simpa using hpd)
      have hlen := (bisectLeft_spec ((p :: ps).map Prod.fst) t hs).1
      have hidx : bisectLeft ((p :: ps).map Prod.fst) t - 1 <
          ((p :: ps).map Prod.fst).length := by
        have hpos : 0 < ((p :: ps).map Prod.fst).length := by simp
        omega
      have hmem : ((p :: ps).map Prod.fst).getD
          (bisectLeft ((p :: ps).map Prod.fst) t - 1) 0 ∈
          (p :: ps).map Prod.fst := by
        rw [List.getD_eq_getElem _ 0 hidx]
        exact List.getElem_mem hidx
      obtain ⟨e, hfind2⟩ :=
        Option.isSome_iff_exists.mp (find?_isSome_of_mem_keys hmem)
      have hek : e.1 = ((p :: ps).map Prod.fst).getD
          (bisectLeft ((p :: ps).map Prod.fst) t - 1) 0 := by
        simpa using List.find?_some hfind2
      refine ⟨e.2, ?_⟩
      simp only [hfind1, hfind2]
      rw [hek]

/-- C3 witness: applying the amended theorem to the sorted cache
`[(0,1),(10,2)]`: the frame-cache result at query 9 is a cached entry
within tolerance, and the thumbnail-cache choice at query 9 is the
distance-minimizing key 10. -/
theorem C3_nearest_amended_witness :
    ((0 : Int), (1 : Nat)) ∈ [((0 : Int), (1 : Nat)), (10, 2)] ∧
    |(0 : Int) - 9| ≤ 100 ∧
    (10 : Int) ∈ [((0 : Int), (1 : Nat)), (10, 2)].map Prod.fst ∧
    |(10 : Int) - 9| ≤ 100 ∧
    ∀ k0 ∈ [((0 : Int), (1 : Nat)), (10, 2)].map Prod.fst,
      |(10 : Int) - 9| ≤ |k0 - 9| := by
  have h := C3_nearest_amended [((0 : Int), (1 : Nat)), (10, 2)] 9 100 (by decide)
  have h1 := h.1 0 1 (by decide)
  have h4 := h.2.2.2.1 10 (by decide)
  exact ⟨h1.1, h1.2, h4.1, h4.2.1, h4.2.2⟩

/-! ## C10: range reporting -/

/-- C10 counterexample: `get_range` reads the first and last keys of the
recency-ordered dict, not the minimum and maximum.  After `put 200; put
100` the cache holds keys {100, 200} but `get_range` returns (200, 100),
not (100, 200). -/
theorem C10_counterexample :
    fcGetRange (fcPutSeq 300 [((200 : Int), (1 : Nat)), (100, 2)]) =
      some (200, 100) ∧
    (fcPutSeq 300 [((200 : Int), (1 : Nat)), (100, 2)]).map Prod.fst =
      [200, 100] ∧
    fcGetRange (fcPutSeq 300 [((200 : Int), (1 : Nat)), (100, 2)]) ≠
      some (100, 200) := by decide

/-- C10 (amended): for an empty cache `get_range` returns nothing; for a
non-empty cache it returns the first and last keys of the recency order,
which are the minimum and maximum of all cached timestamps exactly when
that order is sorted (for example entries inserted in increasing timestamp
order and never re-accessed) — not regardless of insertion or access
order. -/
theorem C10_range_amended (l : List (Int × α)) (hne : l ≠ [])
    (hs : (l.map Prod.fst).Sorted (· ≤ ·)) :
    fcGetRange (α := α) [] = none ∧
    ∃ lo hi, fcGetRange l = some (lo, hi) ∧
      lo ∈ l.map Prod.fst ∧ hi ∈ l.map Prod.fst ∧
      ∀ k ∈ l.map Prod.fst, lo ≤ k ∧ k ≤ hi := by
  refine ⟨rfl, ?_⟩
  cases hks : l.map Prod.fst with
  | nil => exact absurd (List.map_eq_nil_iff.mp hks) hne
  | cons k ks =>
    have heq : fcGetRange l = some (k, (k :: ks).getLastD k) := by
      unfold fcGetRange
      rw [hks]
    rw [hks] at hs
    refine ⟨k, (k :: ks).getLastD k, heq, by simp, hks ▸ getLastD_mem k ks, ?_⟩
    intro k0 hk0
    constructor
    · rcases List.mem_cons.mp hk0 with rfl | hmem
      · exact le_refl _
      · exact (List.sorted_cons.mp hs).1 k0 hmem
    · exact sorted_le_getLastD k ks hs k0 hk0

/-- C10 witness: on the sorted cache `[(100,1),(200,2),(300,3)]` the
reported range brackets every cached timestamp. -/
theorem C10_range_amended_witness :
    ∃ lo hi,
      fcGetRange [((100 : Int), (1 : Nat)), (200, 2), (300, 3)] =
        some (lo, hi) ∧
      lo ∈ [((100 : Int), (1 : Nat)), (200, 2), (300, 3)].map Prod.fst ∧
      hi ∈ [((100 : Int), (1 : Nat)), (200, 2), (300, 3)].map Prod.fst ∧
      ∀ k ∈ [((100 : Int), (1 : Nat)), (200, 2), (300, 3)].map Prod.fst,
        lo ≤ k ∧ k ≤ hi :=
  (C10_range_amended [((100 : Int), (1 : Nat)), (200, 2), (300, 3)]
    (by decide) (by decide)).2

/-! ## C7: mode decision -/

/-- C7: the live/playback decision of `UnifiedCameraCell._decide_mode` is a
pure function of the target time and `now`: an absent target, or a target
within the 5-second live threshold of `now`, yields live mode, anything
older yields playback mode; identical inputs always yield the identical
mode, and the comparison inside `UnifiedCameraCell.seek` implements the
same rule. -/
theorem C7_mode_decision :
    (∀ now : Int, decideMode none now = CellMode.live) ∧
    (∀ t now : Int, now - t ≤ liveThresholdSeconds →
      decideMode (some t) now = CellMode.live) ∧
    (∀ t now : Int, liveThresholdSeconds < now - t →
      decideMode (some t) now = CellMode.playback) ∧
    (∀ t now : Int, decideMode (some t) now = seekModeRule t now) ∧
    (∀ tgt now, decideMode tgt now = decideMode tgt now) := by
  refine ⟨fun now => rfl, ?_, ?_, ?_, fun tgt now => rfl⟩
  · intro t now h
    simp [decideMode, h]
  · intro t now h
    simp [decideMode, Int.not_le.mpr h]
  · intro t now
    rfl

/-- C7 witness: a target 3 s old resolves to live, one 10 s old to
playback. -/
theorem C7_mode_decision_witness :
    decideMode (some 0) 3 = CellMode.live ∧
    decideMode (some 0) 10 = CellMode.playback := by
  exact ⟨C7_mode_decision.2.1 0 3 (by decide), C7_mode_decision.2.2.1 0 10 (by decide)⟩

/-! ## C9: idempotent stop -/

/-- C9: `CameraStream.stop` and `PlaybackController.stop` are idempotent:
a second call reproduces the state of the first call exactly, and the
pipeline handle is released at most once over the two calls (the second
call adds no release, because the first cleared the handle field). -/
theorem C9_stop_idempotent :
    (∀ s : CamStopState, camStop (camStop s) = camStop s ∧
      (camStop (camStop s)).releases = (camStop s).releases ∧
      (camStop s).releases ≤ s.releases + 1) ∧
    (∀ s : PCStopState, pcStop (pcStop s) = pcStop s ∧
      (pcStop (pcStop s)).releases = (pcStop s).releases ∧
      (pcStop s).releases ≤ s.releases + 1) := by
  constructor
  · intro s
    refine ⟨by simp [camStop], by simp [camStop], ?_⟩
    simp only [camStop]
    split <;> omega
  · intro s
    refine ⟨by simp [pcStop], by simp [pcStop], ?_⟩
    simp only [pcStop]
    split <;> omega

/-! ## C8: seek clamping -/

/-- C8: with a window `[start, end]` loaded, `PlaybackController.seek`
stores `clamp(target, start, end)` as the current position for every
target, in or out of range, and never changes the window; no target is
rejected. -/
theorem C8_seek_clamps (s : PCSeekState) (st en : Int)
    (hst : s.startTime = some st) (hen : s.endTime = some en) (hle : st ≤ en)
    (t : Int) :
    (pcSeek s t).currentTime = some (clampSpec t st en) ∧
    (pcSeek s t).startTime = s.startTime ∧
    (pcSeek s t).endTime = s.endTime := by
  have hmax : max st (min t en) = clampSpec t st en := by
    unfold clampSpec
    rw [max_def, min_def]
    split_ifs <;> omega
  unfold pcSeek
  rw [hst, hen]
  simp [hmax, hst, hen]

/-- C8 witness (Scenario D with `T0 = 0`, times in seconds): seeking one
hour before the window start clamps to the start, seeking 30 h into a
24 h window clamps to the end. -/
theorem C8_seek_clamps_witness :
    (pcSeek ⟨some 0, some 86400, none⟩ (-3600)).currentTime = some 0 ∧
    (pcSeek ⟨some 0, some 86400, none⟩ 108000).currentTime = some 86400 := by
  constructor
  · have h := (C8_seek_clamps ⟨some 0, some 86400, none⟩ 0 86400 rfl rfl
      (by decide) (-3600)).1
    simpa [clampSpec] using h
  · have h := (C8_seek_clamps ⟨some 0, some 86400, none⟩ 0 86400 rfl rfl
      (by decide) 108000).1
    simpa [clampSpec] using h

/-! ## C4: duplicate put -/

/-- C4 counterexample: `FrameCache.put` on an already-present timestamp is
not a complete no-op — it refreshes recency.  Starting from the cache
built by `put 100; put 200`, a duplicate `put 100` leaves the entries and
payloads intact but promotes key 100 to most recently used, so the cache
changes. -/
theorem C4_counterexample :
    fcPut 300 (fcPutSeq 300 [((100 : Int), (1 : Nat)), (200, 2)]) 100 9 =
      [(200, 2), (100, 1)] ∧
    fcPut 300 (fcPutSeq 300 [((100 : Int), (1 : Nat)), (200, 2)]) 100 9 ≠
      fcPutSeq 300 [((100 : Int), (1 : Nat)), (200, 2)] := by decide

/-- C4 (amended): a `put` whose timestamp is already present never
overwrites the stored payload and never evicts — the entries are
preserved as a multiset — and `ThumbnailCache.put` is a complete no-op;
but `FrameCache.put` does refresh recency, promoting the existing key to
most recently used (`move_to_end`). -/
theorem C4_duplicate_put (cap : Nat) (l : List (Int × α)) (k : Int) (v : α)
    (hk : k ∈ l.map Prod.fst) :
    fcPut cap l k v = moveToEnd k l ∧
    tcPut cap l k v = l ∧
    ((l.map Prod.fst).Nodup → (fcPut cap l k v).Perm l) := by
  have hsome := find?_isSome_of_mem_keys hk
  refine ⟨?_, ?_, ?_⟩
  · unfold fcPut
    rw [if_pos hsome]
  · unfold tcPut
    rw [if_pos hsome]
  · intro hnd
    unfold fcPut
    rw [if_pos hsome]
    exact moveToEnd_perm k l hnd

/-- C4 witness: duplicate `put` of key 100 with a different payload keeps
both entries and payloads (`ThumbnailCache` untouched, `FrameCache`
reordered only). -/
theorem C4_duplicate_put_witness :
    fcPut 300 [((100 : Int), (1 : Nat)), (200, 2)] 100 9 =
      moveToEnd 100 [((100 : Int), (1 : Nat)), (200, 2)] ∧
    tcPut 500 [((100 : Int), (1 : Nat)), (200, 2)] 100 9 =
      [((100 : Int), (1 : Nat)), (200, 2)] := by
  have h := C4_duplicate_put (α := Nat) 300 [(100, 1), (200, 2)] 100 9 (by decide)
  have h2 := C4_duplicate_put (α := Nat) 500 [(100, 1), (200, 2)] 100 9 (by decide)
  exact ⟨h.1, h2.2.1⟩

/-! ## C6: reconnect backoff -/

theorem handleReconnect_snd_ne_open (a : Nat) :
    (handleReconnect a).2 ≠ LoopEvent.openAttempt := by
  unfold handleReconnect
  split <;> simp

theorem countOpens_runOpens_replicate (n : Nat) :
    ∀ a, countOpens (runOpens (List.replicate n false ++ [true]) a) = n + 1 := by
  induction n with
  | zero =>
    intro a
    simp [runOpens, countOpens]
  | succ n ih =>
    intro a
    rw [List.replicate_succ, List.cons_append]
    rw [runOpens]
    rw [if_neg (by simp)]
    simp only [countOpens, List.countP_cons] at ih ⊢
    rw [ih]
    have hne : (handleReconnect a).2 ≠ LoopEvent.openAttempt :=
      handleReconnect_snd_ne_open a
    simp [hne]

/-- C6: with the counter at `attempt - 1` and `1 ≤ attempt ≤ 10`, a failed
open backs off `min(base · 2^(attempt-1), 30 s)`; the failure that pushes
the counter past 10 instead reports `failed`, waits the fixed 10 s
cooldown and resets the counter to 0; and the capture loop never gives
up — `n` consecutive open failures followed by one success always produce
exactly `n + 1` open attempts.  The explicit 11-failure trace of
Scenario E ends with a 12th open attempt after the cooldown. -/
theorem C6_reconnect_backoff :
    (∀ a : Nat, 1 ≤ a → a ≤ maxReconnectAttempts →
      handleReconnect (a - 1) =
        (a, LoopEvent.backoff (min (baseReconnectDelayMs * 2 ^ (a - 1)) 30000))) ∧
    handleReconnect maxReconnectAttempts = (0, LoopEvent.failedWait 10000) ∧
    (∀ n a : Nat,
      countOpens (runOpens (List.replicate n false ++ [true]) a) = n + 1) ∧
    runOpens (List.replicate 11 false ++ [true]) 0 =
      [.openAttempt, .backoff 1000, .openAttempt, .backoff 2000,
       .openAttempt, .backoff 4000, .openAttempt, .backoff 8000,
       .openAttempt, .backoff 16000, .openAttempt, .backoff 30000,
       .openAttempt, .backoff 30000, .openAttempt, .backoff 30000,
       .openAttempt, .backoff 30000, .openAttempt, .backoff 30000,
       .openAttempt, .failedWait 10000, .openAttempt, .connected] := by
  refine ⟨?_, by decide, fun n a => countOpens_runOpens_replicate n a, by decide⟩
  intro a h1 h10
  unfold handleReconnect
  have ha : a - 1 + 1 = a := by omega
  rw [ha]
  rw [if_neg (by simp only [maxReconnectAttempts] at h10 ⊢; omega)]

/-- C6 witness: the 6th consecutive failure (counter at 5) hits the 30 s
backoff ceiling, and the 11th resets the counter after the cooldown. -/
theorem C6_reconnect_backoff_witness :
    handleReconnect 5 = (6, LoopEvent.backoff 30000) ∧
    handleReconnect 10 = (0, LoopEvent.failedWait 10000) := by
  constructor
  · have h := C6_reconnect_backoff.1 6 (by decide) (by decide)
    simpa using h
  · exact C6_reconnect_backoff.2.1

end CamStation
